import Mathlib

/-!
Verification of the control/bridge layer of the `emulators` repository
(`src/dos/direct/ts/direct.ts`).  The TypeScript source is shallowly embedded:

* the Key Matrix and the input de-duplication logic of
  `DirectCommandInterface.addKey` / `sendKeyEvent` / `simulateKeyPress` /
  `sendMouseMotion` / `sendMouseButton` become pure state transformers on
  `InputState`, with the module's `_addKey` / `_mouseMove` / `_mouseButton`
  entry points recorded as an ordered event trace;
* the startup handshake of `DosDirect` becomes a function of the list of
  diagnostic fragments captured by `startupErrFn` during the boot window;
* the memoized lifecycle operations `persist` / `exit` become a labelled
  transition system `stepLC` over `LCState`, where the opaque module's
  possible reactions to `_packFsToBundle` / `_requestExit` (throw
  synchronously, call the registered one-shot callback immediately, or call
  it later) are explicit behaviours, and Event-Bus/microtask observations are
  recorded in a trace;
* `screenshot` becomes a transformer on a byte-list heap (`HEAPU8`), with the
  returned `ImageData` kept as what the source constructs: a *view*
  descriptor (pointer, width, height) into that heap.

Wall-clock reads (`Date.now()`) are supplied as explicit inputs of each call.
-/

/-! ## Input model: Key Matrix and forwarded module events

`DirectCommandInterface` keeps `keyMatrix : {[keyCode: number]: boolean}`;
a key code absent from the matrix reads as `undefined`, so the source's test
`this.keyMatrix[keyCode] === true` is modelled by `m code == some true` over
`m : Nat → Option Bool`.  Every call the bridge makes into the module
(`_addKey`, `_mouseMove`, `_mouseButton`) is appended to `events`. -/

inductive ModuleEvent where
  | addKey (keyCode : Nat) (pressed : Bool) (timeMs : Nat)
  | mouseMove (x y : Int) (timeMs : Nat)
  | mouseButton (button : Nat) (pressed : Bool) (timeMs : Nat)
  deriving DecidableEq, Repr

/-- Relative timestamp carried by a forwarded event. -/
def evTime : ModuleEvent → Nat
  | .addKey _ _ t => t
  | .mouseMove _ _ t => t
  | .mouseButton _ _ t => t

structure InputState where
  keyMatrix : Nat → Option Bool
  events : List ModuleEvent

/-- Fresh interface: empty key matrix, no events forwarded yet. -/
def initInput : InputState := ⟨fun _ => none, []⟩

/-- Embeds `DirectCommandInterface.addKey`: forward to `module._addKey` and
record the new state only when the pressed state changed; otherwise return
unchanged. -/
def addKey (s : InputState) (keyCode : Nat) (pressed : Bool) (timeMs : Nat) :
    InputState :=
  let keyPressed : Bool := s.keyMatrix keyCode == some true
  if keyPressed = pressed then s
  else { keyMatrix := Function.update s.keyMatrix keyCode (some pressed),
         events := s.events ++ [ModuleEvent.addKey keyCode pressed timeMs] }

/-- Embeds `sendKeyEvent`: `addKey` at relative time `now - startedAt`,
where `now` is the wall clock (`Date.now()`) at the moment of the call. -/
def sendKeyEvent (startedAt : Nat) (s : InputState) (keyCode : Nat)
    (pressed : Bool) (now : Nat) : InputState :=
  addKey s keyCode pressed (now - startedAt)

/-- Embeds `simulateKeyPress`: a press pass over all codes at the current
relative time, then a release pass at that time plus 16. -/
def simulateKeyPress (startedAt : Nat) (s : InputState) (keyCodes : List Nat)
    (now : Nat) : InputState :=
  let timeMs := now - startedAt
  let s1 := keyCodes.foldl (fun st kc => addKey st kc true timeMs) s
  keyCodes.foldl (fun st kc => addKey st kc false (timeMs + 16)) s1

/-- Embeds `sendMouseMotion`: always forwards (no dedup). -/
def sendMouseMotion (startedAt : Nat) (s : InputState) (x y : Int)
    (now : Nat) : InputState :=
  { s with events := s.events ++ [ModuleEvent.mouseMove x y (now - startedAt)] }

/-- Embeds `sendMouseButton`: always forwards (no dedup). -/
def sendMouseButton (startedAt : Nat) (s : InputState) (button : Nat)
    (pressed : Bool) (now : Nat) : InputState :=
  { s with events :=
      s.events ++ [ModuleEvent.mouseButton button pressed (now - startedAt)] }

/-- A host-issued input command, carrying the wall-clock value observed by
`Date.now()` at the moment of the call. -/
inductive Cmd where
  | sendKeyEvent (keyCode : Nat) (pressed : Bool) (now : Nat)
  | simulateKeyPress (keyCodes : List Nat) (now : Nat)
  | sendMouseMotion (x y : Int) (now : Nat)
  | sendMouseButton (button : Nat) (pressed : Bool) (now : Nat)
  deriving DecidableEq, Repr

def runCmd (startedAt : Nat) (s : InputState) : Cmd → InputState
  | .sendKeyEvent c p n => sendKeyEvent startedAt s c p n
  | .simulateKeyPress codes n => simulateKeyPress startedAt s codes n
  | .sendMouseMotion x y n => sendMouseMotion startedAt s x y n
  | .sendMouseButton b p n => sendMouseButton startedAt s b p n

def runCmds (startedAt : Nat) (s : InputState) (cs : List Cmd) : InputState :=
  cs.foldl (runCmd startedAt) s

example : (runCmds 0 initInput
    [Cmd.sendKeyEvent 3 true 10, Cmd.sendKeyEvent 3 true 12,
     Cmd.sendKeyEvent 3 false 20]).events
    = [ModuleEvent.addKey 3 true 10, ModuleEvent.addKey 3 false 20] := by
  decide

/-! ## Key-event de-duplication (C1)

Reference definitions written from the spec's words, to compare the run of a
`sendKeyEvent` call sequence against: the module receives a forwarded event
iff the call's pressed state differs from the tracked state (absent codes
counting as released), and the matrix records the last distinct state per
code.  A call is a triple `(code, pressed, now)`. -/

/-- Modelled from the spec: the events the module should receive from a
sequence of `sendKeyEvent` calls, given the tracked pressed-state `g`
(initially `false` everywhere): a call forwards iff its pressed state
differs from the tracked state, which is then updated. -/
def specEmittedKeys (startedAt : Nat) (g : Nat → Bool) :
    List (Nat × Bool × Nat) → List ModuleEvent
  | [] => []
  | (c, p, n) :: rest =>
    if g c = p then specEmittedKeys startedAt g rest
    else ModuleEvent.addKey c p (n - startedAt) ::
      specEmittedKeys startedAt (Function.update g c p) rest

/-- Modelled from the spec: the per-code last recorded pressed state after a
sequence of `sendKeyEvent` calls (released when the code never occurs). -/
def specTrack (g : Nat → Bool) : List (Nat × Bool × Nat) → Nat → Bool
  | [] => g
  | (c, p, _) :: rest => specTrack (Function.update g c p) rest

def toSendKey (t : Nat × Bool × Nat) : Cmd :=
  Cmd.sendKeyEvent t.1 t.2.1 t.2.2

theorem beq_some_true (p : Bool) : ((some p == some true) : Bool) = p := by
  cases p <;> rfl

theorem run_sendKeys (startedAt : Nat) :
    ∀ (calls : List (Nat × Bool × Nat)) (s : InputState) (g : Nat → Bool),
    (∀ c, (s.keyMatrix c == some true) = g c) →
    (runCmds startedAt s (calls.map toSendKey)).events
      = s.events ++ specEmittedKeys startedAt g calls ∧
    ∀ c, ((runCmds startedAt s (calls.map toSendKey)).keyMatrix c == some true)
      = specTrack g calls c := by
  intro calls
  induction calls with
  | nil =>
    intro s g hg
    refine ⟨by simp [runCmds, specEmittedKeys], ?_⟩
    intro c
    simpa [runCmds, specTrack] using hg c
  | cons hd tl ih =>
    obtain ⟨c, p, n⟩ := hd
    intro s g hg
    have hstep : runCmds startedAt s (((c, p, n) :: tl).map toSendKey)
        = runCmds startedAt (addKey s c p (n - startedAt)) (tl.map toSendKey) := by
      simp [runCmds, toSendKey, sendKeyEvent, List.foldl, runCmd]
    by_cases hcp : g c = p
    · -- redundant call: absorbed, state unchanged
      have habs : addKey s c p (n - startedAt) = s := by
        unfold addKey
        simp [hg c, hcp]
      have hupd : Function.update g c p = g := by
        rw [← hcp]; exact Function.update_eq_self c g
      obtain ⟨h1, h2⟩ := ih s g hg
      constructor
      · rw [hstep, habs, h1]
        simp [specEmittedKeys, hcp]
      · intro d
        rw [hstep, habs]
        simp only [specTrack, hupd]
        exact h2 d
    · -- state change: forwarded and recorded
      have hne : (s.keyMatrix c == some true) ≠ p := by rw [hg c]; exact hcp
      have hfwd : addKey s c p (n - startedAt)
          = { keyMatrix := Function.update s.keyMatrix c (some p),
              events := s.events ++ [ModuleEvent.addKey c p (n - startedAt)] } := by
        unfold addKey
        simp [hne]
      have hg2 : ∀ d, ((Function.update s.keyMatrix c (some p)) d == some true)
          = Function.update g c p d := by
        intro d
        by_cases hdc : d = c
        · subst hdc
          simp [Function.update_same, beq_some_true]
        · simp [Function.update_noteq hdc, hg d]
      obtain ⟨h1, h2⟩ := ih
        { keyMatrix := Function.update s.keyMatrix c (some p),
          events := s.events ++ [ModuleEvent.addKey c p (n - startedAt)] }
        (Function.update g c p) hg2
      constructor
      · rw [hstep, hfwd, h1]
        simp [specEmittedKeys, hcp]
      · intro d
        rw [hstep, hfwd]
        simp only [specTrack]
        exact h2 d

/-- C1: for every sequence of `sendKeyEvent(code, pressed)` calls (each with
its wall-clock value), the events forwarded to the module via `_addKey` are
exactly those calls whose pressed state differs from the Key Matrix's last
recorded state for that code (absent codes counting as released) — so a
redundant identical-state call forwards nothing and leaves the matrix
unchanged — and after all calls the Key Matrix records the last distinct
state per code. -/
theorem sendKeyEvent_forwards_iff_changed (startedAt : Nat)
    (calls : List (Nat × Bool × Nat)) :
    (runCmds startedAt initInput (calls.map toSendKey)).events
      = specEmittedKeys startedAt (fun _ => false) calls ∧
    ∀ c, ((runCmds startedAt initInput (calls.map toSendKey)).keyMatrix c
        == some true) = specTrack (fun _ => false) calls c := by
  have h := run_sendKeys startedAt calls initInput (fun _ => false)
    (fun c => rfl)
  simpa [initInput] using h

/-! ## simulateKeyPress event count (C6)

Because `simulateKeyPress` routes through the de-duplicating `addKey`, a
repeated code (or an already-pressed code) absorbs part of the batch, so the
"exactly four events" claim fails in general; it holds when the two codes are
distinct and both currently released. -/

/-- C6 counterexample: `simulateKeyPress(5, 5)` on a fresh interface forwards
only two events (the duplicate press and the duplicate release are absorbed
by the Key Matrix), not four. -/
theorem simulateKeyPress_not_always_four :
    (runCmd 0 initInput (Cmd.simulateKeyPress [5, 5] 100)).events
      = [ModuleEvent.addKey 5 true 100, ModuleEvent.addKey 5 false 116] ∧
    (runCmd 0 initInput (Cmd.simulateKeyPress [5, 5] 100)).events.length ≠ 4 := by
  decide

/-- C6 (amended): when `a ≠ b` and both codes are currently released in the
Key Matrix, `simulateKeyPress(a, b)` forwards exactly four events, in order:
press `a` and press `b` at the call's relative time `t`, then release `a`
and release `b` at `t + 16`; the press pass completes before the release
pass begins. -/
theorem simulateKeyPress_four_events (startedAt : Nat) (s : InputState)
    (a b now : Nat) (hab : a ≠ b)
    (ha : (s.keyMatrix a == some true) = false)
    (hb : (s.keyMatrix b == some true) = false) :
    (runCmd startedAt s (Cmd.simulateKeyPress [a, b] now)).events
      = s.events ++
        [ModuleEvent.addKey a true (now - startedAt),
         ModuleEvent.addKey b true (now - startedAt),
         ModuleEvent.addKey a false (now - startedAt + 16),
         ModuleEvent.addKey b false (now - startedAt + 16)] := by
  have hba : b ≠ a := Ne.symm hab
  simp only [runCmd, simulateKeyPress, List.foldl]
  unfold addKey
  simp [ha, hb, Function.update_noteq hba, Function.update_noteq hab,
    Function.update_same, beq_some_true]

/-- Witness for `simulateKeyPress_four_events` at codes 1 and 2 on a fresh
interface. -/
theorem simulateKeyPress_four_events_witness :
    (1 : Nat) ≠ 2 ∧ (initInput.keyMatrix 1 == some true) = false ∧
    (initInput.keyMatrix 2 == some true) = false ∧
    (runCmd 0 initInput (Cmd.simulateKeyPress [1, 2] 100)).events
      = initInput.events ++
        [ModuleEvent.addKey 1 true 100, ModuleEvent.addKey 2 true 100,
         ModuleEvent.addKey 1 false 116, ModuleEvent.addKey 2 false 116] :=
  ⟨by decide, by decide, by decide,
    simulateKeyPress_four_events 0 initInput 1 2 100 (by decide) (by decide)
      (by decide)⟩

/-! ## Ordering and timestamps of forwarded input events (C9)

Forwarded events are appended to the trace in the order the host issues the
calls (the bridge invokes the module synchronously inside each call).  Each
event carries `Date.now() - startedAt`, except that the release pass of
`simulateKeyPress` is stamped 16 units into the future — which can exceed
the timestamp of a later-issued call. -/

/-- Adjacent-pair check that the forwarded timestamps never decrease. -/
def timesMonotone : List ModuleEvent → Bool
  | [] => true
  | [_] => true
  | a :: b :: rest => decide (evTime a ≤ evTime b) && timesMonotone (b :: rest)

/-- Wall-clock instant at which a command is issued. -/
def clockOf : Cmd → Nat
  | .sendKeyEvent _ _ n => n
  | .simulateKeyPress _ n => n
  | .sendMouseMotion _ _ n => n
  | .sendMouseButton _ _ n => n

/-- How far beyond its issue time a command stamps events: only
`simulateKeyPress` stamps (release) events 16 units ahead. -/
def extraOf : Cmd → Nat
  | .simulateKeyPress _ _ => 16
  | _ => 0

/-- Clock discipline for a command sequence: the wall clock never precedes
`startedAt`, never decreases, and after a `simulateKeyPress` at least 16
units pass before the next command (`B` is the relative-time lower bound the
next command must reach). -/
def validClocks (startedAt : Nat) : Nat → List Cmd → Bool
  | _, [] => true
  | B, c :: rest =>
    decide (startedAt ≤ clockOf c) && decide (B ≤ clockOf c - startedAt) &&
      validClocks startedAt (clockOf c - startedAt + extraOf c) rest

/-- Relative-time upper bound on every event after running the commands. -/
def finalBound (startedAt : Nat) : Nat → List Cmd → Nat
  | B, [] => B
  | _, c :: rest => finalBound startedAt (clockOf c - startedAt + extraOf c) rest

theorem timesMonotone_append (ys : List ModuleEvent) :
    ∀ xs : List ModuleEvent, timesMonotone xs = true → timesMonotone ys = true →
    (∀ a ∈ xs, ∀ b ∈ ys, evTime a ≤ evTime b) →
    timesMonotone (xs ++ ys) = true := by
  intro xs
  induction xs with
  | nil => intro _ hy _; simpa using hy
  | cons a xs ih =>
    intro hx hy hle
    cases xs with
    | nil =>
      cases ys with
      | nil => rfl
      | cons b ys =>
        have hab : evTime a ≤ evTime b := by
          exact hle a (by simp) b (by simp)
        simp [timesMonotone, hab, hy]
    | cons a2 xs2 =>
      have hx2 : timesMonotone (a2 :: xs2) = true := by
        have := hx
        simp [timesMonotone] at this
        simpa [timesMonotone] using this.2
      have ha2 : evTime a ≤ evTime a2 := by
        have := hx
        simp [timesMonotone] at this
        exact this.1
      have hrest := ih hx2 hy (fun x hx' b hb => hle x (by simp [hx']) b hb)
      simpa [timesMonotone, ha2] using hrest

theorem timesMonotone_const (t : Nat) :
    ∀ l : List ModuleEvent, (∀ e ∈ l, evTime e = t) → timesMonotone l = true := by
  intro l
  induction l with
  | nil => intro _; rfl
  | cons a l ih =>
    intro h
    cases l with
    | nil => rfl
    | cons b l2 =>
      have hb := ih (fun e he => h e (by simp [he]))
      have : evTime a ≤ evTime b := by
        rw [h a (by simp), h b (by simp)]
      simpa [timesMonotone, this] using hb

theorem addKey_events_sub (s : InputState) (c : Nat) (p : Bool) (t : Nat) :
    (addKey s c p t).events = s.events ∨
    (addKey s c p t).events = s.events ++ [ModuleEvent.addKey c p t] := by
  unfold addKey
  by_cases h : (s.keyMatrix c == some true) = p
  · left; simp [h]
  · right; simp [h]

theorem foldl_addKey_events (pr : Bool) (t : Nat) :
    ∀ (codes : List Nat) (s : InputState), ∃ new,
      (codes.foldl (fun st kc => addKey st kc pr t) s).events
        = s.events ++ new ∧ ∀ e ∈ new, evTime e = t := by
  intro codes
  induction codes with
  | nil => intro s; exact ⟨[], by simp, by simp⟩
  | cons kc codes ih =>
    intro s
    obtain ⟨new, hnew, htimes⟩ := ih (addKey s kc pr t)
    rcases addKey_events_sub s kc pr t with hsame | happ
    · refine ⟨new, ?_, htimes⟩
      simpa [List.foldl, hsame] using hnew
    · refine ⟨ModuleEvent.addKey kc pr t :: new, ?_, ?_⟩
      · simp only [List.foldl]
        rw [hnew, happ]
        simp
      · intro e he
        rcases List.mem_cons.mp he with rfl | hmem
        · rfl
        · exact htimes e hmem

theorem runCmd_events (startedAt : Nat) (s : InputState) (c : Cmd) :
    ∃ new, (runCmd startedAt s c).events = s.events ++ new ∧
      timesMonotone new = true ∧
      ∀ e ∈ new, clockOf c - startedAt ≤ evTime e ∧
        evTime e ≤ clockOf c - startedAt + extraOf c := by
  cases c with
  | sendKeyEvent kc p n =>
    rcases addKey_events_sub s kc p (n - startedAt) with hsame | happ
    · exact ⟨[], by simpa [runCmd, sendKeyEvent] using hsame, rfl, by simp⟩
    · refine ⟨[ModuleEvent.addKey kc p (n - startedAt)], ?_, rfl, ?_⟩
      · simpa [runCmd, sendKeyEvent] using happ
      · intro e he
        rcases List.mem_singleton.mp he with rfl
        simp [evTime, clockOf, extraOf]
  | simulateKeyPress codes n =>
    obtain ⟨pnew, hp, hpt⟩ := foldl_addKey_events true (n - startedAt) codes s
    obtain ⟨rnew, hr, hrt⟩ := foldl_addKey_events false (n - startedAt + 16)
      codes (codes.foldl (fun st kc => addKey st kc true (n - startedAt)) s)
    refine ⟨pnew ++ rnew, ?_, ?_, ?_⟩
    · simp only [runCmd, simulateKeyPress]
      rw [hr, hp]
      simp
    · refine timesMonotone_append rnew pnew
        (timesMonotone_const _ pnew hpt) (timesMonotone_const _ rnew hrt) ?_
      intro a ha b hb
      rw [hpt a ha, hrt b hb]
      omega
    · intro e he
      rcases List.mem_append.mp he with hmem | hmem
      · rw [hpt e hmem]; simp [clockOf, extraOf]
      · rw [hrt e hmem]; simp [clockOf, extraOf]
  | sendMouseMotion x y n =>
    refine ⟨[ModuleEvent.mouseMove x y (n - startedAt)], by
      simp [runCmd, sendMouseMotion], rfl, ?_⟩
    intro e he
    rcases List.mem_singleton.mp he with rfl
    simp [evTime, clockOf, extraOf]
  | sendMouseButton b p n =>
    refine ⟨[ModuleEvent.mouseButton b p (n - startedAt)], by
      simp [runCmd, sendMouseButton], rfl, ?_⟩
    intro e he
    rcases List.mem_singleton.mp he with rfl
    simp [evTime, clockOf, extraOf]

theorem runCmds_monotone_aux (startedAt : Nat) :
    ∀ (cs : List Cmd) (B : Nat) (s : InputState),
    validClocks startedAt B cs = true →
    timesMonotone s.events = true →
    (∀ e ∈ s.events, evTime e ≤ B) →
    timesMonotone (runCmds startedAt s cs).events = true ∧
    ∀ e ∈ (runCmds startedAt s cs).events,
      evTime e ≤ finalBound startedAt B cs := by
  intro cs
  induction cs with
  | nil =>
    intro B2 s _ hmono hbound
    exact ⟨hmono, by simpa [runCmds, finalBound] using hbound⟩
  | cons c rest ih =>
    intro B s hvalid hmono hbound
    have hv : (decide (startedAt ≤ clockOf c) &&
        decide (B ≤ clockOf c - startedAt) &&
        validClocks startedAt (clockOf c - startedAt + extraOf c) rest) = true := by
      simpa [validClocks] using hvalid
    rw [Bool.and_eq_true, Bool.and_eq_true] at hv
    have hB : B ≤ clockOf c - startedAt := of_decide_eq_true hv.1.2
    have hrest : validClocks startedAt (clockOf c - startedAt + extraOf c) rest
        = true := hv.2
    obtain ⟨new, hnew, hmn, hbnds⟩ := runCmd_events startedAt s c
    have hstep : runCmds startedAt s (c :: rest)
        = runCmds startedAt (runCmd startedAt s c) rest := rfl
    have hmono2 : timesMonotone (runCmd startedAt s c).events = true := by
      rw [hnew]
      refine timesMonotone_append new s.events hmono hmn ?_
      intro a hax b hbx
      calc evTime a ≤ B := hbound a hax
        _ ≤ clockOf c - startedAt := hB
        _ ≤ evTime b := (hbnds b hbx).1
    have hbound2 : ∀ e ∈ (runCmd startedAt s c).events,
        evTime e ≤ clockOf c - startedAt + extraOf c := by
      intro e he
      rw [hnew] at he
      rcases List.mem_append.mp he with hmem | hmem
      · calc evTime e ≤ B := hbound e hmem
          _ ≤ clockOf c - startedAt := hB
          _ ≤ clockOf c - startedAt + extraOf c := Nat.le_add_right _ _
      · exact (hbnds e hmem).2
    have := ih (clockOf c - startedAt + extraOf c) (runCmd startedAt s c)
      hrest hmono2 hbound2
    rw [hstep]
    simpa [finalBound] using this

/-- C9 counterexample: with a perfectly non-decreasing wall clock
(`simulateKeyPress([1])` at time 100, then `sendKeyEvent(2, true)` at time
105), the forwarded timestamps are 100, 116, 105 — not monotonically
non-decreasing, because the simulated release is stamped 16 units ahead. -/
theorem timestamps_not_monotone :
    (runCmds 0 initInput
      [Cmd.simulateKeyPress [1] 100, Cmd.sendKeyEvent 2 true 105]).events
      = [ModuleEvent.addKey 1 true 100, ModuleEvent.addKey 1 false 116,
         ModuleEvent.addKey 2 true 105] ∧
    timesMonotone (runCmds 0 initInput
      [Cmd.simulateKeyPress [1] 100, Cmd.sendKeyEvent 2 true 105]).events
      = false := by
  decide

/-- C9 (amended): events are forwarded in the order the host issued the
commands (each call appends its events to the module-bound trace before the
next call runs), and the forwarded relative timestamps are monotonically
non-decreasing provided the wall clock is non-decreasing, never precedes
`startedAt`, and at least 16 units elapse between a `simulateKeyPress` call
and the next command (`validClocks startedAt 0 cs`). -/
theorem timestamps_monotone_with_gap (startedAt : Nat) (cs : List Cmd)
    (h : validClocks startedAt 0 cs = true) :
    timesMonotone (runCmds startedAt initInput cs).events = true :=
  (runCmds_monotone_aux startedAt cs 0 initInput h rfl
    (by intro e he; cases he)).1

/-- Witness for `timestamps_monotone_with_gap`: a `simulateKeyPress` at 100
followed 20 units later by a `sendKeyEvent`. -/
theorem timestamps_monotone_with_gap_witness :
    validClocks 0 0
      [Cmd.simulateKeyPress [1] 100, Cmd.sendKeyEvent 2 true 120] = true ∧
    timesMonotone (runCmds 0 initInput
      [Cmd.simulateKeyPress [1] 100, Cmd.sendKeyEvent 2 true 120]).events
      = true :=
  ⟨by decide, timestamps_monotone_with_gap 0
    [Cmd.simulateKeyPress [1] 100, Cmd.sendKeyEvent 2 true 120] (by decide)⟩

/-! ## screenshot (C7, C8)

The source builds `new Uint8ClampedArray(this.module.HEAPU8.buffer, rgbaPtr,
width*height*4)` — a *view* into the module's heap, not a copy — then runs
`for (let next = 3; next < rgba.byteLength; next = next + 4) rgba[next] = 255`
through that view, and wraps the same array in `ImageData` (which shares the
buffer).  The heap is a byte list, a typed-array read is `byteAt`, and the
loop is `alphaLoopFuel` (structurally recursive on a fuel that bounds the
iteration count: the index advances by 4 each pass, so `len` passes always
suffice for a loop that stops at `len`). -/

def byteAt : List Nat → Nat → Option Nat
  | [], _ => none
  | x :: _, 0 => some x
  | _ :: xs, n + 1 => byteAt xs n

theorem byteAt_set_eq (v : Nat) :
    ∀ (l : List Nat) (i : Nat), i < l.length → byteAt (l.set i v) i = some v := by
  intro l
  induction l with
  | nil => intro i h; simp at h
  | cons x xs ih =>
    intro i h
    cases i with
    | zero => rfl
    | succ j =>
      have : j < xs.length := by simpa using h
      simpa [List.set, byteAt] using ih j this

theorem byteAt_set_ne (v : Nat) :
    ∀ (l : List Nat) (i j : Nat), i ≠ j → byteAt (l.set i v) j = byteAt l j := by
  intro l
  induction l with
  | nil => intro i j _; simp [List.set]
  | cons x xs ih =>
    intro i j hij
    cases i with
    | zero =>
      cases j with
      | zero => exact absurd rfl hij
      | succ k => rfl
    | succ i2 =>
      cases j with
      | zero => rfl
      | succ k =>
        have : i2 ≠ k := fun h => hij (by rw [h])
        simpa [List.set, byteAt] using ih i2 k this

/-- The alpha-forcing loop of `screenshot`, seen through the heap the view
points into: `heap[ptr + next] := 255` for `next = 3, 7, 11, …` while
`next < len`.  `fuel` only bounds the number of iterations. -/
def alphaLoopFuel : Nat → List Nat → Nat → Nat → Nat → List Nat
  | 0, heap, _, _, _ => heap
  | fuel + 1, heap, ptr, next, len =>
    if next < len then
      alphaLoopFuel fuel (heap.set (ptr + next) 255) ptr (next + 4) len
    else heap

/-- The `ImageData` the source returns: a view descriptor over the module
heap (`data` aliases `HEAPU8.buffer` from `ptr`, `width*height*4` bytes). -/
structure ImageDataView where
  ptr : Nat
  width : Nat
  height : Nat
  deriving DecidableEq, Repr

/-- Embeds `screenshot`: runs the alpha loop through the view (mutating the
module heap) and returns the mutated heap together with the view descriptor
wrapped in `ImageData`. -/
def screenshot (heap : List Nat) (rgbaPtr width height : Nat) :
    List Nat × ImageDataView :=
  (alphaLoopFuel (width * height * 4) heap rgbaPtr 3 (width * height * 4),
   ⟨rgbaPtr, width, height⟩)

/-- Reading byte `i` of the returned `ImageData`: a typed-array read through
the view, i.e. a read of the current module heap at `ptr + i`. -/
def imageByte (heap : List Nat) (img : ImageDataView) (i : Nat) : Option Nat :=
  if i < img.width * img.height * 4 then byteAt heap (img.ptr + i) else none

theorem alphaLoopFuel_length :
    ∀ (fuel : Nat) (heap : List Nat) (ptr next len : Nat),
    (alphaLoopFuel fuel heap ptr next len).length = heap.length := by
  intro fuel
  induction fuel with
  | zero => intro heap ptr next len; rfl
  | succ f ih =>
    intro heap ptr next len
    by_cases h : next < len
    · simp only [alphaLoopFuel, if_pos h]
      rw [ih]
      exact List.length_set ..
    · simp [alphaLoopFuel, h]

theorem alphaLoopFuel_get_lt :
    ∀ (fuel : Nat) (heap : List Nat) (ptr next len k : Nat), k < ptr + next →
    byteAt (alphaLoopFuel fuel heap ptr next len) k = byteAt heap k := by
  intro fuel
  induction fuel with
  | zero => intro heap ptr next len k _; rfl
  | succ f ih =>
    intro heap ptr next len k hk
    by_cases h : next < len
    · simp only [alphaLoopFuel, if_pos h]
      rw [ih _ _ _ _ _ (by omega)]
      exact byteAt_set_ne 255 heap (ptr + next) k (by omega)
    · simp [alphaLoopFuel, h]

theorem alphaLoopFuel_alpha :
    ∀ (fuel : Nat) (heap : List Nat) (ptr next len j : Nat),
    len ≤ next + 4 * fuel → next ≤ j → j < len → (j - next) % 4 = 0 →
    ptr + j < heap.length →
    byteAt (alphaLoopFuel fuel heap ptr next len) (ptr + j) = some 255 := by
  intro fuel
  induction fuel with
  | zero => intro heap ptr next len j hfuel hnj hjl _ _; omega
  | succ f ih =>
    intro heap ptr next len j hfuel hnj hjl hmod hlen
    have h : next < len := by omega
    simp only [alphaLoopFuel, if_pos h]
    by_cases hje : j = next
    · subst hje
      rw [alphaLoopFuel_get_lt f _ _ _ _ _ (by omega)]
      exact byteAt_set_eq 255 heap (ptr + j) hlen
    · have hj4 : next + 4 ≤ j := by omega
      refine ih (heap.set (ptr + next) 255) ptr (next + 4) len j
        (by omega) hj4 hjl (by omega) ?_
      rw [List.length_set]
      exact hlen

/-- C8: for every module frame buffer content and every frame of dimensions
`width × height` (both at least 1, the view lying inside the heap), every
fourth byte of the pixel data returned by `screenshot` — offset 3 of each
pixel, read through the returned image — is 255. -/
theorem screenshot_alpha_255 (heap : List Nat) (ptr width height i : Nat)
    (_h1w : 1 ≤ width) (_h1h : 1 ≤ height)
    (hbound : ptr + width * height * 4 ≤ heap.length)
    (hi : i < width * height) :
    imageByte (screenshot heap ptr width height).1
      (screenshot heap ptr width height).2 (4 * i + 3) = some 255 := by
  have hlt : 4 * i + 3 < width * height * 4 := by omega
  simp only [screenshot, imageByte, if_pos hlt]
  exact alphaLoopFuel_alpha (width * height * 4) heap ptr 3
    (width * height * 4) (4 * i + 3) (by omega) (by omega) hlt (by omega)
    (by omega)

/-- Witness for `screenshot_alpha_255`: a 1×1 frame over a 4-byte heap. -/
theorem screenshot_alpha_255_witness :
    (1 ≤ 1 ∧ 0 + 1 * 1 * 4 ≤ ([7, 7, 7, 7] : List Nat).length ∧ 0 < 1 * 1) ∧
    imageByte (screenshot [7, 7, 7, 7] 0 1 1).1
      (screenshot [7, 7, 7, 7] 0 1 1).2 (4 * 0 + 3) = some 255 :=
  ⟨by decide, screenshot_alpha_255 [7, 7, 7, 7] 0 1 1 0 (by decide) (by decide)
    (by decide) (by decide)⟩

/-- C7 counterexample: `screenshot` is not a pure copy.  On the 1×1 frame
buffer `[7, 7, 7, 7]` at pointer 0, taking a screenshot rewrites the
module's own heap (the alpha byte becomes 255 in module memory), and a
subsequent module write into the frame buffer (byte 0 set to 9) is visible
through the already-returned image — the pixel data is a view into
module-owned memory, not an immutable copy. -/
theorem screenshot_not_a_copy :
    (screenshot [7, 7, 7, 7] 0 1 1).1 ≠ [7, 7, 7, 7] ∧
    imageByte ((screenshot [7, 7, 7, 7] 0 1 1).1.set 0 9)
      (screenshot [7, 7, 7, 7] 0 1 1).2 0 = some 9 := by
  decide

/-- C7 (amended): the `ImageData` returned by `screenshot` aliases the
module's frame buffer: its pixel data is a view into module-owned memory
(reading byte `k` of the image after the module writes `v` at heap position
`ptr + k` yields `v`), and the alpha-forcing pass itself writes 255 into the
module's own heap rather than into a private copy. -/
theorem screenshot_view_aliasing (heap : List Nat) (ptr width height k v : Nat)
    (hk : k < width * height * 4) (hbound : ptr + k < heap.length) :
    imageByte ((screenshot heap ptr width height).1.set (ptr + k) v)
      (screenshot heap ptr width height).2 k = some v := by
  simp only [screenshot, imageByte, if_pos hk]
  refine byteAt_set_eq v _ (ptr + k) ?_
  rw [alphaLoopFuel_length]
  exact hbound

/-- Witness for `screenshot_view_aliasing` on the 1×1 frame `[7, 7, 7, 7]`. -/
theorem screenshot_view_aliasing_witness :
    ((0 : Nat) < 1 * 1 * 4 ∧ 0 + 0 < ([7, 7, 7, 7] : List Nat).length) ∧
    imageByte ((screenshot [7, 7, 7, 7] 0 1 1).1.set (0 + 0) 9)
      (screenshot [7, 7, 7, 7] 0 1 1).2 0 = some 9 :=
  ⟨by decide, screenshot_view_aliasing [7, 7, 7, 7] 0 1 1 0 9 (by decide)
    (by decide)⟩

/-! ## Lifecycle controller: persist and exit (C3, C4, C5, C10)

`persist()` / `exit()` are embedded as a labelled transition system.  The
opaque module's possible reactions to the request entry points are explicit
behaviours: `_packFsToBundle` / `_requestExit` may throw synchronously (the
promise executor then rejects the promise, per JS semantics), may invoke the
registered one-shot callback immediately, or may accept the request and
invoke the callback later (delivered by the `modulePersistCb` /
`moduleExitCb` operations; the module fires a result callback only for a
request it actually accepted, tracked by `pendingPack` / `pendingExit`).
Observable happenings — callback invocations, the Exit event fired on the
Event Bus by the `.then` continuation, the resolution of the future `exit()`
returned — are appended to a trace.  Archive payloads and thrown errors are
opaque tokens (`Nat`). -/

inductive PState where
  | pending
  | resolved (v : Nat)
  | rejected (e : Nat)
  deriving DecidableEq, Repr

inductive LCEvent where
  | persistCbInvoked (a : Nat)
  | termCb
  | busExit
  | exitResolved
  deriving DecidableEq, Repr

inductive PackBehavior where
  | throws (e : Nat)
  | defers
  | immediate (a : Nat)
  deriving DecidableEq, Repr

inductive ExitBehavior where
  | throws (e : Nat)
  | defers
  | immediate
  deriving DecidableEq, Repr

inductive LCOp where
  | persist (b : PackBehavior)
  | exit (b : ExitBehavior)
  | modulePersistCb (a : Nat)
  | moduleExitCb
  deriving DecidableEq, Repr

structure LCState where
  persistP : Option PState
  exitP : Option PState
  persistSlot : Bool
  exitSlot : Bool
  pendingPack : Bool
  pendingExit : Bool
  packCalls : Nat
  requestExitCalls : Nat
  persistPromisesMade : Nat
  exitPromisesMade : Nat
  trace : List LCEvent
  deriving DecidableEq, Repr

def initLC : LCState :=
  ⟨none, none, false, false, false, false, 0, 0, 0, 0, []⟩

/-- One step of the lifecycle controller.

`persist`: if `persistPromise` is already set, return it unchanged (the
memoized branch).  Otherwise create the promise, install `module.persist`,
and call `_packFsToBundle`: a synchronous throw rejects the new promise (the
one-shot callback stays installed but the request was never accepted); an
immediate callback resolves it and deletes `module.persist`; otherwise the
request is accepted and the promise stays pending.

`exit`: same memoization; on a synchronous `_requestExit` throw the executor
exception rejects the promise and no Exit event ever fires; on termination
(immediately or via `moduleExitCb`) the one-shot `module.exit` callback
resolves the inner promise, the `.then` continuation fires Exit on the Event
Bus, and only then does the returned future resolve. -/
def stepLC (s : LCState) : LCOp → LCState
  | .persist b =>
    match s.persistP with
    | some _ => s
    | none =>
      match b with
      | .throws e =>
        { s with persistP := some (PState.rejected e), persistSlot := true,
                 packCalls := s.packCalls + 1,
                 persistPromisesMade := s.persistPromisesMade + 1 }
      | .defers =>
        { s with persistP := some PState.pending, persistSlot := true,
                 pendingPack := true, packCalls := s.packCalls + 1,
                 persistPromisesMade := s.persistPromisesMade + 1 }
      | .immediate a =>
        { s with persistP := some (PState.resolved a), persistSlot := false,
                 packCalls := s.packCalls + 1,
                 persistPromisesMade := s.persistPromisesMade + 1,
                 trace := s.trace ++ [LCEvent.persistCbInvoked a] }
  | .exit b =>
    match s.exitP with
    | some _ => s
    | none =>
      match b with
      | .throws e =>
        { s with exitP := some (PState.rejected e), exitSlot := true,
                 requestExitCalls := s.requestExitCalls + 1,
                 exitPromisesMade := s.exitPromisesMade + 1 }
      | .defers =>
        { s with exitP := some PState.pending, exitSlot := true,
                 pendingExit := true,
                 requestExitCalls := s.requestExitCalls + 1,
                 exitPromisesMade := s.exitPromisesMade + 1 }
      | .immediate =>
        { s with exitP := some (PState.resolved 0), exitSlot := true,
                 requestExitCalls := s.requestExitCalls + 1,
                 exitPromisesMade := s.exitPromisesMade + 1,
                 trace := s.trace ++
                   [LCEvent.termCb, LCEvent.busExit, LCEvent.exitResolved] }
  | .modulePersistCb a =>
    if s.pendingPack && s.persistSlot then
      { s with persistP := some (PState.resolved a), persistSlot := false,
               pendingPack := false,
               trace := s.trace ++ [LCEvent.persistCbInvoked a] }
    else s
  | .moduleExitCb =>
    if s.pendingExit && s.exitSlot then
      { s with exitP := some (PState.resolved 0), pendingExit := false,
               trace := s.trace ++
                 [LCEvent.termCb, LCEvent.busExit, LCEvent.exitResolved] }
    else s

def runLC (s : LCState) (ops : List LCOp) : LCState :=
  ops.foldl stepLC s

/-- Generic preservation of an invariant along a run. -/
theorem runLC_invariant {P : LCState → Prop}
    (h : ∀ s op, P s → P (stepLC s op)) :
    ∀ (ops : List LCOp) (s : LCState), P s → P (runLC s ops) := by
  intro ops
  induction ops with
  | nil => intro s hs; exact hs
  | cons op rest ih =>
    intro s hs
    exact ih (stepLC s op) (h s op hs)

def isPersistOp : LCOp → Bool
  | .persist _ => true
  | _ => false

def isExitOp : LCOp → Bool
  | .exit _ => true
  | _ => false

example :
    (runLC initLC [LCOp.persist PackBehavior.defers,
      LCOp.persist (PackBehavior.immediate 9),
      LCOp.modulePersistCb 5, LCOp.modulePersistCb 6]).persistP
      = some (PState.resolved 5) := by decide

example : (runLC initLC [LCOp.exit ExitBehavior.defers,
      LCOp.moduleExitCb]).trace
      = [LCEvent.termCb, LCEvent.busExit, LCEvent.exitResolved] := by decide

/-! ### Memoization of persist and exit (C3) -/

theorem stepLC_persist_fresh (s : LCState) (b : PackBehavior)
    (hp : s.persistP = none) :
    (stepLC s (.persist b)).packCalls = s.packCalls + 1 ∧
    (stepLC s (.persist b)).persistPromisesMade = s.persistPromisesMade + 1 ∧
    (stepLC s (.persist b)).persistP.isNone = false := by
  cases b <;> simp [stepLC, hp]

theorem stepLC_persist_memo (s : LCState) (b : PackBehavior) (v : PState)
    (hp : s.persistP = some v) : stepLC s (.persist b) = s := by
  simp [stepLC, hp]

theorem stepLC_exit_fresh (s : LCState) (b : ExitBehavior)
    (hp : s.exitP = none) :
    (stepLC s (.exit b)).requestExitCalls = s.requestExitCalls + 1 ∧
    (stepLC s (.exit b)).exitPromisesMade = s.exitPromisesMade + 1 ∧
    (stepLC s (.exit b)).exitP.isNone = false := by
  cases b <;> simp [stepLC, hp]

theorem stepLC_exit_memo (s : LCState) (b : ExitBehavior) (v : PState)
    (hp : s.exitP = some v) : stepLC s (.exit b) = s := by
  simp [stepLC, hp]

theorem stepLC_nonpersist (s : LCState) (op : LCOp)
    (hop : isPersistOp op = false)
    (hinv : s.persistP = none → s.pendingPack = false) :
    (stepLC s op).packCalls = s.packCalls ∧
    (stepLC s op).persistPromisesMade = s.persistPromisesMade ∧
    (stepLC s op).persistP.isNone = s.persistP.isNone := by
  cases op with
  | persist b => simp [isPersistOp] at hop
  | exit b =>
    cases hq : s.exitP with
    | some v => simp [stepLC_exit_memo s b v hq]
    | none => cases b <;> simp [stepLC, hq]
  | modulePersistCb a =>
    by_cases hg : s.pendingPack && s.persistSlot
    · have hpp : s.pendingPack = true := by
        rcases Bool.and_eq_true .. ▸ hg with ⟨h1, _⟩
        exact h1
      have : s.persistP ≠ none := by
        intro hnone
        rw [hinv hnone] at hpp
        exact Bool.false_ne_true hpp
      obtain ⟨v, hv⟩ := Option.ne_none_iff_exists.mp this
      simp [stepLC, hg, ← hv]
    · simp [stepLC, hg]
  | moduleExitCb =>
    by_cases hg : s.pendingExit && s.exitSlot
    · simp [stepLC, hg]
    · simp [stepLC, hg]

theorem stepLC_nonexit (s : LCState) (op : LCOp)
    (hop : isExitOp op = false)
    (hinv : s.exitP = none → s.pendingExit = false) :
    (stepLC s op).requestExitCalls = s.requestExitCalls ∧
    (stepLC s op).exitPromisesMade = s.exitPromisesMade ∧
    (stepLC s op).exitP.isNone = s.exitP.isNone := by
  cases op with
  | exit b => simp [isExitOp] at hop
  | persist b =>
    cases hq : s.persistP with
    | some v => simp [stepLC_persist_memo s b v hq]
    | none => cases b <;> simp [stepLC, hq]
  | moduleExitCb =>
    by_cases hg : s.pendingExit && s.exitSlot
    · have hpp : s.pendingExit = true := by
        rcases Bool.and_eq_true .. ▸ hg with ⟨h1, _⟩
        exact h1
      have : s.exitP ≠ none := by
        intro hnone
        rw [hinv hnone] at hpp
        exact Bool.false_ne_true hpp
      obtain ⟨v, hv⟩ := Option.ne_none_iff_exists.mp this
      simp [stepLC, hg, ← hv]
    · simp [stepLC, hg]
  | modulePersistCb a =>
    by_cases hg : s.pendingPack && s.persistSlot
    · simp [stepLC, hg]
    · simp [stepLC, hg]

theorem stepLC_persist_inv (s : LCState) (op : LCOp)
    (hinv : s.persistP = none → s.pendingPack = false) :
    (stepLC s op).persistP = none → (stepLC s op).pendingPack = false := by
  cases op with
  | persist b =>
    cases hq : s.persistP with
    | some v => rw [stepLC_persist_memo s b v hq]; exact hinv
    | none => cases b <;> simp [stepLC, hq]
  | exit b =>
    cases hq : s.exitP with
    | some v => rw [stepLC_exit_memo s b v hq]; exact hinv
    | none => cases b <;> simp [stepLC, hq] <;> exact hinv
  | modulePersistCb a =>
    by_cases hg : s.pendingPack && s.persistSlot
    · simp [stepLC, hg]
    · simp [stepLC, hg]; exact hinv
  | moduleExitCb =>
    by_cases hg : s.pendingExit && s.exitSlot
    · simp [stepLC, hg]; exact hinv
    · simp [stepLC, hg]; exact hinv

theorem stepLC_exit_inv (s : LCState) (op : LCOp)
    (hinv : s.exitP = none → s.pendingExit = false) :
    (stepLC s op).exitP = none → (stepLC s op).pendingExit = false := by
  cases op with
  | persist b =>
    cases hq : s.persistP with
    | some v => rw [stepLC_persist_memo s b v hq]; exact hinv
    | none => cases b <;> simp [stepLC, hq] <;> exact hinv
  | exit b =>
    cases hq : s.exitP with
    | some v => rw [stepLC_exit_memo s b v hq]; exact hinv
    | none => cases b <;> simp [stepLC, hq]
  | modulePersistCb a =>
    by_cases hg : s.pendingPack && s.persistSlot
    · simp [stepLC, hg]; exact hinv
    · simp [stepLC, hg]; exact hinv
  | moduleExitCb =>
    by_cases hg : s.pendingExit && s.exitSlot
    · simp [stepLC, hg]
    · simp [stepLC, hg]; exact hinv

theorem runLC_persist_counts :
    ∀ (ops : List LCOp) (s : LCState),
    (s.persistP = none → s.pendingPack = false) →
    (runLC s ops).packCalls = s.packCalls +
      (if s.persistP.isNone && ops.any isPersistOp then 1 else 0) ∧
    (runLC s ops).persistPromisesMade = s.persistPromisesMade +
      (if s.persistP.isNone && ops.any isPersistOp then 1 else 0) := by
  intro ops
  induction ops with
  | nil => intro s _; simp [runLC]
  | cons op rest ih =>
    intro s hinv
    obtain ⟨i1, i2⟩ := ih (stepLC s op) (stepLC_persist_inv s op hinv)
    have hrw : runLC s (op :: rest) = runLC (stepLC s op) rest := rfl
    rw [hrw]
    cases op with
    | persist b =>
      cases hq : s.persistP with
      | none =>
        obtain ⟨f1, f2, f3⟩ := stepLC_persist_fresh s b hq
        rw [i1, i2, f1, f2, f3]
        simp [hq, isPersistOp]
      | some v =>
        rw [stepLC_persist_memo s b v hq] at i1 i2 ⊢
        rw [i1, i2, hq]
        simp
    | exit b =>
      obtain ⟨f1, f2, f3⟩ := stepLC_nonpersist s (.exit b) rfl hinv
      rw [i1, i2, f1, f2, f3]
      simp [isPersistOp]
    | modulePersistCb a =>
      obtain ⟨f1, f2, f3⟩ := stepLC_nonpersist s (.modulePersistCb a) rfl hinv
      rw [i1, i2, f1, f2, f3]
      simp [isPersistOp]
    | moduleExitCb =>
      obtain ⟨f1, f2, f3⟩ := stepLC_nonpersist s .moduleExitCb rfl hinv
      rw [i1, i2, f1, f2, f3]
      simp [isPersistOp]

theorem runLC_exit_counts :
    ∀ (ops : List LCOp) (s : LCState),
    (s.exitP = none → s.pendingExit = false) →
    (runLC s ops).requestExitCalls = s.requestExitCalls +
      (if s.exitP.isNone && ops.any isExitOp then 1 else 0) ∧
    (runLC s ops).exitPromisesMade = s.exitPromisesMade +
      (if s.exitP.isNone && ops.any isExitOp then 1 else 0) := by
  intro ops
  induction ops with
  | nil => intro s _; simp [runLC]
  | cons op rest ih =>
    intro s hinv
    obtain ⟨i1, i2⟩ := ih (stepLC s op) (stepLC_exit_inv s op hinv)
    have hrw : runLC s (op :: rest) = runLC (stepLC s op) rest := rfl
    rw [hrw]
    cases op with
    | exit b =>
      cases hq : s.exitP with
      | none =>
        obtain ⟨f1, f2, f3⟩ := stepLC_exit_fresh s b hq
        rw [i1, i2, f1, f2, f3]
        simp [hq, isExitOp]
      | some v =>
        rw [stepLC_exit_memo s b v hq] at i1 i2 ⊢
        rw [i1, i2, hq]
        simp
    | persist b =>
      obtain ⟨f1, f2, f3⟩ := stepLC_nonexit s (.persist b) rfl hinv
      rw [i1, i2, f1, f2, f3]
      simp [isExitOp]
    | modulePersistCb a =>
      obtain ⟨f1, f2, f3⟩ := stepLC_nonexit s (.modulePersistCb a) rfl hinv
      rw [i1, i2, f1, f2, f3]
      simp [isExitOp]
    | moduleExitCb =>
      obtain ⟨f1, f2, f3⟩ := stepLC_nonexit s .moduleExitCb rfl hinv
      rw [i1, i2, f1, f2, f3]
      simp [isExitOp]

/-- C3: over every operation sequence (persist and exit calls with any
module behaviours, interleaved with module callback deliveries), the module's
`_packFsToBundle` is invoked exactly once when at least one `persist()` call
occurs (never re-triggered by later calls), `_requestExit` likewise for
`exit()`, and only one persist future and one exit future are ever created —
so every second and later call returns the identical memoized future of the
first call, and all callers resolve to that future's single result value. -/
theorem persist_exit_memoized (ops : List LCOp) :
    (runLC initLC ops).packCalls = (if ops.any isPersistOp then 1 else 0) ∧
    (runLC initLC ops).persistPromisesMade
      = (if ops.any isPersistOp then 1 else 0) ∧
    (runLC initLC ops).requestExitCalls = (if ops.any isExitOp then 1 else 0) ∧
    (runLC initLC ops).exitPromisesMade
      = (if ops.any isExitOp then 1 else 0) := by
  obtain ⟨p1, p2⟩ := runLC_persist_counts ops initLC (fun _ => rfl)
  obtain ⟨e1, e2⟩ := runLC_exit_counts ops initLC (fun _ => rfl)
  simp only [initLC, Option.isNone_none, Bool.true_and, Nat.zero_add]
    at p1 p2 e1 e2
  exact ⟨p1, p2, e1, e2⟩

/-! ### Ordering of termination callback, Exit event, and resolution (C4) -/

def isTerm : LCEvent → Bool
  | .termCb => true
  | _ => false

def isBus : LCEvent → Bool
  | .busExit => true
  | _ => false

def isRes : LCEvent → Bool
  | .exitResolved => true
  | _ => false

/-- Prefix-count check over an observable trace: scanning left to right with
running counts of termination callbacks (`t`), Exit bus events (`b`) and
resolutions of the returned exit future (`r`), every prefix must satisfy
`r ≤ b ≤ t` — i.e. an Exit event is never observable before the module's
termination callback, and the future never resolves before the Exit event. -/
def orderGo : Nat → Nat → Nat → List LCEvent → Bool
  | _, _, _, [] => true
  | t, b, r, e :: rest =>
    decide (b + (if isBus e then 1 else 0) ≤ t + (if isTerm e then 1 else 0)) &&
    decide (r + (if isRes e then 1 else 0) ≤ b + (if isBus e then 1 else 0)) &&
    orderGo (t + (if isTerm e then 1 else 0)) (b + (if isBus e then 1 else 0))
      (r + (if isRes e then 1 else 0)) rest

theorem orderGo_append :
    ∀ (xs : List LCEvent) (t b r : Nat) (ys : List LCEvent),
    orderGo t b r xs = true →
    orderGo (t + xs.countP isTerm) (b + xs.countP isBus)
      (r + xs.countP isRes) ys = true →
    orderGo t b r (xs ++ ys) = true := by
  intro xs
  induction xs with
  | nil => intro t b r ys _ h2; simpa using h2
  | cons e xs ih =>
    intro t b r ys h1 h2
    simp only [orderGo, Bool.and_eq_true, decide_eq_true_eq] at h1
    obtain ⟨⟨hb, hr⟩, hrest⟩ := h1
    simp only [List.cons_append, orderGo, Bool.and_eq_true, decide_eq_true_eq]
    refine ⟨⟨hb, hr⟩, ?_⟩
    refine ih _ _ _ ys hrest ?_
    have e1 : t + (e :: xs).countP isTerm
        = t + (if isTerm e then 1 else 0) + xs.countP isTerm := by
      rw [List.countP_cons]; omega
    have e2 : b + (e :: xs).countP isBus
        = b + (if isBus e then 1 else 0) + xs.countP isBus := by
      rw [List.countP_cons]; omega
    have e3 : r + (e :: xs).countP isRes
        = r + (if isRes e then 1 else 0) + xs.countP isRes := by
      rw [List.countP_cons]; omega
    rw [e1, e2, e3] at h2
    exact h2

theorem orderGo_block_cb (t b r a : Nat) (hb : b ≤ t) (hr : r ≤ b) :
    orderGo t b r [LCEvent.persistCbInvoked a] = true := by
  simp [orderGo, isTerm, isBus, isRes]
  omega

theorem orderGo_block_exit (t b r : Nat) (hb : b ≤ t) (hr : r ≤ b) :
    orderGo t b r [LCEvent.termCb, LCEvent.busExit, LCEvent.exitResolved]
      = true := by
  simp [orderGo, isTerm, isBus, isRes]
  omega

def TraceInv (s : LCState) : Prop :=
  orderGo 0 0 0 s.trace = true ∧
  s.trace.countP isBus ≤ s.trace.countP isTerm ∧
  s.trace.countP isRes ≤ s.trace.countP isBus

theorem traceInv_append_cb (tr : List LCEvent) (a : Nat)
    (h1 : orderGo 0 0 0 tr = true)
    (h2 : tr.countP isBus ≤ tr.countP isTerm)
    (h3 : tr.countP isRes ≤ tr.countP isBus) :
    orderGo 0 0 0 (tr ++ [LCEvent.persistCbInvoked a]) = true ∧
    (tr ++ [LCEvent.persistCbInvoked a]).countP isBus
      ≤ (tr ++ [LCEvent.persistCbInvoked a]).countP isTerm ∧
    (tr ++ [LCEvent.persistCbInvoked a]).countP isRes
      ≤ (tr ++ [LCEvent.persistCbInvoked a]).countP isBus := by
  refine ⟨orderGo_append tr 0 0 0 _ h1
    (orderGo_block_cb _ _ _ a (by omega) (by omega)), ?_, ?_⟩ <;>
  · simp only [List.countP_append, List.countP_cons, List.countP_nil,
      isTerm, isBus, isRes]
    omega

theorem traceInv_append_exit (tr : List LCEvent)
    (h1 : orderGo 0 0 0 tr = true)
    (h2 : tr.countP isBus ≤ tr.countP isTerm)
    (h3 : tr.countP isRes ≤ tr.countP isBus) :
    orderGo 0 0 0
      (tr ++ [LCEvent.termCb, LCEvent.busExit, LCEvent.exitResolved])
      = true ∧
    (tr ++ [LCEvent.termCb, LCEvent.busExit, LCEvent.exitResolved]).countP isBus
      ≤ (tr ++ [LCEvent.termCb, LCEvent.busExit,
          LCEvent.exitResolved]).countP isTerm ∧
    (tr ++ [LCEvent.termCb, LCEvent.busExit, LCEvent.exitResolved]).countP isRes
      ≤ (tr ++ [LCEvent.termCb, LCEvent.busExit,
          LCEvent.exitResolved]).countP isBus := by
  refine ⟨orderGo_append tr 0 0 0 _ h1
    (orderGo_block_exit _ _ _ (by omega) (by omega)), ?_, ?_⟩ <;>
  · simp only [List.countP_append, List.countP_cons, List.countP_nil,
      isTerm, isBus, isRes]
    omega

theorem stepLC_trace_inv (s : LCState) (op : LCOp) (h : TraceInv s) :
    TraceInv (stepLC s op) := by
  obtain ⟨h1, h2, h3⟩ := h
  cases op with
  | persist b =>
    cases hq : s.persistP with
    | some v => rw [stepLC_persist_memo s b v hq]; exact ⟨h1, h2, h3⟩
    | none =>
      cases b with
      | throws e => exact ⟨by simpa [stepLC, hq] using h1,
          by simpa [stepLC, hq] using h2, by simpa [stepLC, hq] using h3⟩
      | defers => exact ⟨by simpa [stepLC, hq] using h1,
          by simpa [stepLC, hq] using h2, by simpa [stepLC, hq] using h3⟩
      | immediate a =>
        obtain ⟨g1, g2, g3⟩ := traceInv_append_cb s.trace a h1 h2 h3
        exact ⟨by simpa [stepLC, hq] using g1,
          by simpa [stepLC, hq] using g2, by simpa [stepLC, hq] using g3⟩
  | exit b =>
    cases hq : s.exitP with
    | some v => rw [stepLC_exit_memo s b v hq]; exact ⟨h1, h2, h3⟩
    | none =>
      cases b with
      | throws e => exact ⟨by simpa [stepLC, hq] using h1,
          by simpa [stepLC, hq] using h2, by simpa [stepLC, hq] using h3⟩
      | defers => exact ⟨by simpa [stepLC, hq] using h1,
          by simpa [stepLC, hq] using h2, by simpa [stepLC, hq] using h3⟩
      | immediate =>
        obtain ⟨g1, g2, g3⟩ := traceInv_append_exit s.trace h1 h2 h3
        exact ⟨by simpa [stepLC, hq] using g1,
          by simpa [stepLC, hq] using g2, by simpa [stepLC, hq] using g3⟩
  | modulePersistCb a =>
    by_cases hg : s.pendingPack && s.persistSlot
    · obtain ⟨g1, g2, g3⟩ := traceInv_append_cb s.trace a h1 h2 h3
      exact ⟨by simpa [stepLC, hg] using g1,
        by simpa [stepLC, hg] using g2, by simpa [stepLC, hg] using g3⟩
    · exact ⟨by simpa [stepLC, hg] using h1,
        by simpa [stepLC, hg] using h2, by simpa [stepLC, hg] using h3⟩
  | moduleExitCb =>
    by_cases hg : s.pendingExit && s.exitSlot
    · obtain ⟨g1, g2, g3⟩ := traceInv_append_exit s.trace h1 h2 h3
      exact ⟨by simpa [stepLC, hg] using g1,
        by simpa [stepLC, hg] using g2, by simpa [stepLC, hg] using g3⟩
    · exact ⟨by simpa [stepLC, hg] using h1,
        by simpa [stepLC, hg] using h2, by simpa [stepLC, hg] using h3⟩

/-- C4: over every operation sequence, the observable trace (termination
callbacks, Exit events on the Event Bus, resolutions of the future `exit()`
returned) passes the prefix check `orderGo 0 0 0`: in every prefix, the
number of exit-future resolutions never exceeds the number of Exit bus
events, which never exceeds the number of module termination callbacks.
Hence the future `exit()` returns resolves only after the module's
termination callback has fired, the Exit event is observed strictly after
that callback and before the future resolves, and an Exit event is never
observable before the module confirms termination. -/
theorem exit_event_order (ops : List LCOp) :
    orderGo 0 0 0 (runLC initLC ops).trace = true :=
  (runLC_invariant stepLC_trace_inv ops initLC
    ⟨rfl, Nat.le_refl _, Nat.le_refl _⟩).1

/-! ### Synchronous throws from the module request entry points (C5, C10) -/

def isPersistCb : LCEvent → Bool
  | .persistCbInvoked _ => true
  | _ => false

theorem persist_throw_inv (e : Nat) (s : LCState) (op : LCOp)
    (h : s.persistP = some (PState.rejected e) ∧ s.pendingPack = false ∧
      s.packCalls = 1 ∧ s.trace.countP isPersistCb = 0) :
    (stepLC s op).persistP = some (PState.rejected e) ∧
    (stepLC s op).pendingPack = false ∧
    (stepLC s op).packCalls = 1 ∧
    (stepLC s op).trace.countP isPersistCb = 0 := by
  obtain ⟨h1, h2, h3, h4⟩ := h
  cases op with
  | persist b =>
    rw [stepLC_persist_memo s b _ h1]
    exact ⟨h1, h2, h3, h4⟩
  | exit b =>
    cases hq : s.exitP with
    | some v =>
      rw [stepLC_exit_memo s b v hq]
      exact ⟨h1, h2, h3, h4⟩
    | none =>
      cases b <;>
        simp_all [stepLC, hq, List.countP_append, List.countP_cons,
          List.countP_nil, isPersistCb]
  | modulePersistCb a =>
    have hg : (s.pendingPack && s.persistSlot) = false := by
      rw [h2]; rfl
    simp only [stepLC, hg, Bool.false_eq_true, if_false]
    exact ⟨h1, h2, h3, h4⟩
  | moduleExitCb =>
    by_cases hg : s.pendingExit && s.exitSlot
    · simp_all [stepLC, hg, List.countP_append, List.countP_cons,
        List.countP_nil, isPersistCb]
    · simp only [stepLC, hg, Bool.false_eq_true, if_false]
      exact ⟨h1, h2, h3, h4⟩

/-- C5: if `_packFsToBundle` throws synchronously during the first
`persist()` call, the memoized persist future is rejected with exactly the
thrown error and stays so across every continuation of the run, the one-shot
`module.persist` callback is never invoked (the request was never accepted,
so the module never produces an archive), and the module was asked to pack
exactly once. -/
theorem persist_sync_throw_rejects (e : Nat) (rest : List LCOp) :
    (runLC initLC (LCOp.persist (PackBehavior.throws e) :: rest)).persistP
      = some (PState.rejected e) ∧
    (runLC initLC (LCOp.persist (PackBehavior.throws e)
      :: rest)).trace.countP isPersistCb = 0 ∧
    (runLC initLC (LCOp.persist (PackBehavior.throws e) :: rest)).packCalls
      = 1 := by
  have h0 : (stepLC initLC (.persist (.throws e))).persistP
        = some (PState.rejected e) ∧
      (stepLC initLC (.persist (.throws e))).pendingPack = false ∧
      (stepLC initLC (.persist (.throws e))).packCalls = 1 ∧
      (stepLC initLC (.persist (.throws e))).trace.countP isPersistCb = 0 :=
    ⟨rfl, rfl, rfl, rfl⟩
  have h := runLC_invariant (P := fun s =>
      s.persistP = some (PState.rejected e) ∧ s.pendingPack = false ∧
      s.packCalls = 1 ∧ s.trace.countP isPersistCb = 0)
    (persist_throw_inv e) rest (stepLC initLC (.persist (.throws e))) h0
  exact ⟨h.1, h.2.2.2, h.2.2.1⟩

theorem exit_throw_inv (e : Nat) (s : LCState) (op : LCOp)
    (h : s.exitP = some (PState.rejected e) ∧ s.pendingExit = false ∧
      s.requestExitCalls = 1 ∧ s.exitPromisesMade = 1 ∧
      s.trace.countP isBus = 0) :
    (stepLC s op).exitP = some (PState.rejected e) ∧
    (stepLC s op).pendingExit = false ∧
    (stepLC s op).requestExitCalls = 1 ∧
    (stepLC s op).exitPromisesMade = 1 ∧
    (stepLC s op).trace.countP isBus = 0 := by
  obtain ⟨h1, h2, h3, h4, h5⟩ := h
  cases op with
  | exit b =>
    rw [stepLC_exit_memo s b _ h1]
    exact ⟨h1, h2, h3, h4, h5⟩
  | persist b =>
    cases hq : s.persistP with
    | some v =>
      rw [stepLC_persist_memo s b v hq]
      exact ⟨h1, h2, h3, h4, h5⟩
    | none =>
      cases b <;>
        simp_all [stepLC, hq, List.countP_append, List.countP_cons,
          List.countP_nil, isBus]
  | modulePersistCb a =>
    by_cases hg : s.pendingPack && s.persistSlot
    · simp_all [stepLC, hg, List.countP_append, List.countP_cons,
        List.countP_nil, isBus]
    · simp only [stepLC, hg, Bool.false_eq_true, if_false]
      exact ⟨h1, h2, h3, h4, h5⟩
  | moduleExitCb =>
    have hg : (s.pendingExit && s.exitSlot) = false := by
      rw [h2]; rfl
    simp only [stepLC, hg, Bool.false_eq_true, if_false]
    exact ⟨h1, h2, h3, h4, h5⟩

/-- C10: if `_requestExit` throws synchronously during the first `exit()`
call, the promise executor exception rejects the returned future with that
error; no Exit event is ever fired on the Event Bus in any continuation of
the run, and the rejected future is memoized — the module is asked to exit
exactly once and no further exit future is ever created, so every later
`exit()` call returns the same rejected future without re-invoking the
module. -/
theorem exit_sync_throw_rejects (e : Nat) (rest : List LCOp) :
    (runLC initLC (LCOp.exit (ExitBehavior.throws e) :: rest)).exitP
      = some (PState.rejected e) ∧
    (runLC initLC (LCOp.exit (ExitBehavior.throws e)
      :: rest)).trace.countP isBus = 0 ∧
    (runLC initLC (LCOp.exit (ExitBehavior.throws e) :: rest)).requestExitCalls
      = 1 ∧
    (runLC initLC (LCOp.exit (ExitBehavior.throws e) :: rest)).exitPromisesMade
      = 1 := by
  have h0 : (stepLC initLC (.exit (.throws e))).exitP
        = some (PState.rejected e) ∧
      (stepLC initLC (.exit (.throws e))).pendingExit = false ∧
      (stepLC initLC (.exit (.throws e))).requestExitCalls = 1 ∧
      (stepLC initLC (.exit (.throws e))).exitPromisesMade = 1 ∧
      (stepLC initLC (.exit (.throws e))).trace.countP isBus = 0 :=
    ⟨rfl, rfl, rfl, rfl, rfl⟩
  have h := runLC_invariant (P := fun s =>
      s.exitP = some (PState.rejected e) ∧ s.pendingExit = false ∧
      s.requestExitCalls = 1 ∧ s.exitPromisesMade = 1 ∧
      s.trace.countP isBus = 0)
    (exit_throw_inv e) rest (stepLC initLC (.exit (.throws e))) h0
  exact ⟨h.1, h.2.2.2.2, h.2.2.1, h.2.2.2.1⟩

/-! ## Startup handshake (C2)

`DosDirect` installs `startupErrFn` as the fatal error sink; during the boot
window every diagnostic emission appends its serialized arguments plus a
newline to `startupErrorLog`.  After the interface is constructed it
inspects the log: non-empty means request exit on the fresh interface and
throw `new Error(startupErrorLog)`; empty means swap `module.err` /
`module.printErr` to the forwarding-only `errFn` and return the interface.
The embedding takes as input the list of serialized diagnostic fragments
emitted before the inspection point (construction itself completing, and
the module honouring the best-effort exit request, as in the source's happy
path up to that inspection). -/

/-- Which fatal error sink is installed on the module when the handshake
finishes successfully. -/
inductive ErrSink where
  | startup
  | forwarding
  deriving DecidableEq, Repr

structure DosDirectResult where
  exitRequested : Bool
  outcome : Except String ErrSink

/-- The accumulated `startupErrorLog`: each emission appends
`JSON.stringify(args) + "\n"`. -/
def startupLog (frags : List String) : String :=
  frags.foldl (fun log f => log ++ f ++ "\n") ""

/-- Embeds the tail of `DosDirect`: inspect `startupErrorLog`; if non-empty,
request exit on the freshly created interface and reject with
`Error(startupErrorLog)`; otherwise swap the fatal sink for the
forwarding-only sink and return the ready interface. -/
def DosDirect (frags : List String) : DosDirectResult :=
  if (startupLog frags).length > 0 then
    { exitRequested := true, outcome := Except.error (startupLog frags) }
  else
    { exitRequested := false, outcome := Except.ok ErrSink.forwarding }

/-- Every emitted diagnostic fragment, each followed by its newline,
concatenated in emission order. -/
def concatFrags : List String → String
  | [] => ""
  | f :: rest => f ++ "\n" ++ concatFrags rest

theorem startupLog_eq_concat :
    ∀ (frags : List String) (acc : String),
    frags.foldl (fun log f => log ++ f ++ "\n") acc = acc ++ concatFrags frags := by
  intro frags
  induction frags with
  | nil => intro acc; simp [concatFrags]
  | cons f rest ih =>
    intro acc
    simp only [List.foldl, concatFrags]
    rw [ih]
    simp [String.append_assoc]

theorem concatFrags_length_pos (f : String) (rest : List String) :
    0 < (concatFrags (f :: rest)).length := by
  simp only [concatFrags, String.length_append]
  have : ("\n" : String).length = 1 := by decide
  omega

/-- C2: the startup handshake fails exactly when some diagnostic output was
appended to the Startup Error Log before readiness was confirmed.  In that
case `DosDirect` requests exit on the freshly created interface and rejects
with an error whose message is precisely every emitted diagnostic fragment
(each with its trailing newline) concatenated in emission order — so no
ready interface is ever returned; with an empty log it requests no exit,
swaps the fatal sink for the forwarding-only sink, and returns the ready
interface. -/
theorem dosDirect_startup_outcome (frags : List String) :
    (DosDirect frags).exitRequested = !frags.isEmpty ∧
    (DosDirect frags).outcome =
      (if frags.isEmpty then Except.ok ErrSink.forwarding
       else Except.error (concatFrags frags)) := by
  have hlog : startupLog frags = concatFrags frags := by
    rw [startupLog, startupLog_eq_concat frags ""]
    exact String.empty_append _
  cases frags with
  | nil =>
    have h0 : startupLog [] = "" := rfl
    constructor <;> simp [DosDirect, h0]
  | cons f rest =>
    have hpos : 0 < (concatFrags (f :: rest)).length :=
      concatFrags_length_pos f rest
    constructor <;> simp [DosDirect, hlog, hpos]
